import Mathlib

/-!
# Verification of the mp2json converter

A shallow embedding of the mp2json program (src/main.rs): a streaming
msgpack-to-JSON transcoder.  The pure value-conversion function `convert`
is embedded directly; the I/O driver (`Converter.run_inner` / `Converter.run`)
is embedded as a function over an explicit trace of decode outcomes and
write outcomes, since the byte-level msgpack decoder (rmpv) and the
operating-system I/O are external collaborators of the repository.
-/

/-- A byte, as stored in msgpack String/Binary/Ext payloads (Rust u8). -/
abbrev Byte := Fin 256

/- ### Base64 (standard alphabet, padded), modelling base64::BASE64_STANDARD -/

/-- The standard base64 alphabet, index 0 to 63. -/
def b64Alphabet : List Char :=
  "ABCDEFGHIJKLMNOPQRSTUVWXYZabcdefghijklmnopqrstuvwxyz0123456789+/".data

/-- The alphabet character for a 6-bit group. -/
def b64Char (n : Nat) : Char := b64Alphabet.getD n 'A'

/-- Inverse of the alphabet mapping: the 6-bit group for a character,
or none when the character is outside the standard alphabet. -/
def decodeB64Char (c : Char) : Option (Fin 64) :=
  let i := b64Alphabet.indexOf c
  if h : i < 64 then some ⟨i, h⟩ else none

/-- Standard base64 encoding of a byte list as a character list,
with trailing-group padding by the pad character. -/
def b64EncodeList : List Byte → List Char
  | [] => []
  | [b0] =>
    [b64Char (b0.val / 4), b64Char (b0.val % 4 * 16), '=', '=']
  | [b0, b1] =>
    [b64Char (b0.val / 4), b64Char (b0.val % 4 * 16 + b1.val / 16),
     b64Char (b1.val % 16 * 4), '=']
  | b0 :: b1 :: b2 :: rest =>
    b64Char (b0.val / 4) :: b64Char (b0.val % 4 * 16 + b1.val / 16) ::
    b64Char (b1.val % 16 * 4 + b2.val / 64) :: b64Char (b2.val % 64) ::
    b64EncodeList rest

/-- Standard base64 decoding of a character list. -/
def b64DecodeList : List Char → Option (List Byte)
  | [] => some []
  | c0 :: c1 :: c2 :: c3 :: rest =>
    match decodeB64Char c0, decodeB64Char c1 with
    | some d0, some d1 =>
      if c2 = '=' then
        if c3 = '=' ∧ rest = [] then
          some [⟨d0.val * 4 + d1.val / 16, by have := d0.isLt; have := d1.isLt; omega⟩]
        else none
      else
        match decodeB64Char c2 with
        | some d2 =>
          if c3 = '=' then
            if rest = [] then
              some [⟨d0.val * 4 + d1.val / 16, by have := d0.isLt; have := d1.isLt; omega⟩,
                    ⟨d1.val % 16 * 16 + d2.val / 4, by have := d2.isLt; omega⟩]
            else none
          else
            match decodeB64Char c3 with
            | some d3 =>
              (b64DecodeList rest).map (fun bs =>
                ⟨d0.val * 4 + d1.val / 16, by have := d0.isLt; have := d1.isLt; omega⟩ ::
                ⟨d1.val % 16 * 16 + d2.val / 4, by have := d2.isLt; omega⟩ ::
                ⟨d2.val % 4 * 64 + d3.val, by have := d3.isLt; omega⟩ :: bs)
            | none => none
        | none => none
    | _, _ => none
  | _ => none

/-- Base64 encoding packaged as a string (the form stored in the JSON output). -/
def b64Encode (bs : List Byte) : String := ⟨b64EncodeList bs⟩

/-- Base64 decoding of a string. -/
def b64Decode (s : String) : Option (List Byte) := b64DecodeList s.data

/- ### UTF-8 validation and decoding, modelling Rust core str::from_utf8 -/

/-- Whether a byte is a UTF-8 continuation byte (10xxxxxx). -/
def isUtf8Cont (b : Byte) : Bool := 0x80 ≤ b.val ∧ b.val < 0xC0

/-- Strict UTF-8 decoding of raw bytes to unicode text: rejects
continuation-byte leads, overlong forms, surrogate code points and
out-of-range code points, exactly as Rust string validation does.
Returns none when the bytes are not valid UTF-8. -/
def utf8Decode : List Byte → Option (List Char)
  | [] => some []
  | b0 :: rest =>
    if b0.val < 0x80 then
      (utf8Decode rest).map (fun cs => Char.ofNat b0.val :: cs)
    else if b0.val < 0xC2 then none
    else if b0.val < 0xE0 then
      match rest with
      | b1 :: rest' =>
        if isUtf8Cont b1 then
          (utf8Decode rest').map (fun cs =>
            Char.ofNat ((b0.val - 0xC0) * 0x40 + (b1.val - 0x80)) :: cs)
        else none
      | [] => none
    else if b0.val < 0xF0 then
      match rest with
      | b1 :: b2 :: rest' =>
        if isUtf8Cont b1 ∧ isUtf8Cont b2 then
          let cp := (b0.val - 0xE0) * 0x1000 + (b1.val - 0x80) * 0x40 + (b2.val - 0x80)
          if cp < 0x800 ∨ (0xD800 ≤ cp ∧ cp < 0xE000) then none
          else (utf8Decode rest').map (fun cs => Char.ofNat cp :: cs)
        else none
      | _ => none
    else if b0.val < 0xF5 then
      match rest with
      | b1 :: b2 :: b3 :: rest' =>
        if isUtf8Cont b1 ∧ isUtf8Cont b2 ∧ isUtf8Cont b3 then
          let cp := (b0.val - 0xF0) * 0x40000 + (b1.val - 0x80) * 0x1000 +
            (b2.val - 0x80) * 0x40 + (b3.val - 0x80)
          if cp < 0x10000 ∨ 0x110000 ≤ cp then none
          else (utf8Decode rest').map (fun cs => Char.ofNat cp :: cs)
        else none
      | _ => none
    else none

/- ### The msgpack value model (rmpv::Value) -/

/-- rmpv::Integer: internally either an unsigned 64-bit payload (PosInt,
here a Nat) or a signed 64-bit payload (NegInt, here an Int). -/
inductive MpInteger
  | posInt (n : Nat)
  | negInt (n : Int)
  deriving DecidableEq, Repr

/-- The mathematical value of an rmpv integer. -/
def MpInteger.toIntVal : MpInteger → Int
  | .posInt n => n
  | .negInt n => n

/-- The payload is within the machine range of its Rust carrier type
(u64 for PosInt, i64 for NegInt): every integer the external msgpack
decoder can construct satisfies this. -/
def MpInteger.inRange : MpInteger → Prop
  | .posInt n => n < 2 ^ 64
  | .negInt n => -(2 ^ 63) ≤ n ∧ n < 2 ^ 63

instance : DecidablePred MpInteger.inRange := fun i => by
  cases i <;> (unfold MpInteger.inRange; infer_instance)

/-- rmpv Integer::as_i64: NegInt is returned directly; PosInt is
numerically cast, succeeding exactly when it fits in i64. -/
def MpInteger.as_i64 : MpInteger → Option Int
  | .posInt n => if (n : Int) ≤ 2 ^ 63 - 1 then some (n : Int) else none
  | .negInt n => some n

/-- rmpv Integer::as_u64: PosInt is returned directly; NegInt is
numerically cast, succeeding exactly when it is nonnegative. -/
def MpInteger.as_u64 : MpInteger → Option Nat
  | .posInt n => some n
  | .negInt n => if 0 ≤ n then some n.toNat else none

/-- rmpv Integer::as_f64: both 64-bit payloads always have a floating
approximation, so the cast always succeeds.  The f64 value itself is kept
symbolically as the exact integer being approximated, since no part of the
program inspects it. -/
def MpInteger.as_f64 : MpInteger → Option Int
  | .posInt n => some (n : Int)
  | .negInt n => some n

/-- rmpv::Value, the decoded msgpack value model.  Float payloads are
carried as raw bit patterns (they are only ever passed through). -/
inductive MpValue
  | nil
  | boolean (b : Bool)
  | integer (i : MpInteger)
  | f32 (bits : Nat)
  | f64 (bits : Nat)
  | string (bytes : List Byte)
  | binary (bytes : List Byte)
  | array (vs : List MpValue)
  | map (entries : List (MpValue × MpValue))
  | ext (typeCode : Int) (bytes : List Byte)

/- ### The JSON value model (json::JsonValue) -/

/-- json::number::Number, abstracted by provenance: exact 64-bit integers
(from i64 or u64) versus floating payloads, which the program never
computes with and which are kept symbolic. -/
inductive JNumber
  | intNum (n : Int)
  | floatOfF32 (bits : Nat)
  | floatOfF64 (bits : Nat)
  | floatApproxOfInt (n : Int)
  deriving DecidableEq, Repr

/-- json::JsonValue.  Objects are insertion-ordered association lists with
unique keys, as maintained by json::object::Object. -/
inductive JsonValue
  | null
  | boolean (b : Bool)
  | number (n : JNumber)
  | string (s : String)
  | array (vs : List JsonValue)
  | object (o : List (String × JsonValue))

/-- json::object::Object::insert: when the key is already present its value
is overwritten in place (position kept); otherwise the entry is appended. -/
def objInsert (o : List (String × JsonValue)) (k : String) (v : JsonValue) :
    List (String × JsonValue) :=
  if o.any (fun p => p.1 == k) then
    o.map (fun p => if p.1 == k then (k, v) else p)
  else o ++ [(k, v)]

/-- Collecting a sequence of key-value pairs into a json Object: sequential
insertion in order (FromIterator for json::object::Object). -/
def buildObj (ps : List (String × JsonValue)) : List (String × JsonValue) :=
  ps.foldl (fun o p => objInsert o p.1 p.2) []

/-- Lookup in a json Object. -/
def objGet (o : List (String × JsonValue)) (k : String) : Option JsonValue :=
  (o.find? (fun p => p.1 == k)).map (fun p => p.2)

/- ### Conversion errors (Mp2JsonError) -/

/-- std::io::ErrorKind, restricted to the kinds the program distinguishes. -/
inductive IoErrorKind
  | brokenPipe
  | unexpectedEof
  | otherKind
  deriving DecidableEq, Repr

/-- rmpv::decode::Error: a read failure of the leading marker byte, a read
failure of the data following a marker, or the recursion-depth guard. -/
inductive RmpDecodeError
  | invalidMarkerRead (k : IoErrorKind)
  | invalidDataRead (k : IoErrorKind)
  | depthLimitExceeded
  deriving DecidableEq, Repr

/-- Mp2JsonError, the program's error enum. -/
inductive Mp2JsonError
  | invalidString
  | invalidInteger (i : MpInteger)
  | mapKeyNotString
  | rmpDecode (e : RmpDecodeError)
  | output (k : IoErrorKind)
  deriving DecidableEq, Repr

/- ### The conversion function (convert) -/

mutual

/-- The pure value converter, fn convert in src/main.rs: one decoded
msgpack value to one JSON value or a typed conversion error. -/
def convert : MpValue → Except Mp2JsonError JsonValue
  | .nil => .ok .null
  | .boolean b => .ok (.boolean b)
  | .integer i =>
    match i.as_i64 with
    | some n => .ok (.number (.intNum n))
    | none =>
      match i.as_u64 with
      | some n => .ok (.number (.intNum n))
      | none =>
        match i.as_f64 with
        | some n => .ok (.number (.floatApproxOfInt n))
        | none => .error (.invalidInteger i)
  | .f32 bits => .ok (.number (.floatOfF32 bits))
  | .f64 bits => .ok (.number (.floatOfF64 bits))
  | .string bytes =>
    match utf8Decode bytes with
    | some cs => .ok (.string ⟨cs⟩)
    | none => .error .invalidString
  | .binary bytes =>
    .ok (.object (objInsert (objInsert [] "encoding" (.string "base64"))
      "value" (.string (b64Encode bytes))))
  | .array vs =>
    match convertList vs with
    | .ok ws => .ok (.array ws)
    | .error e => .error e
  | .map entries =>
    match convertEntries entries with
    | .ok ps => .ok (.object (buildObj ps))
    | .error e => .error e
  | .ext typeCode bytes =>
    .ok (.object (objInsert (objInsert (objInsert [] "type_code"
      (.number (.intNum typeCode))) "encoding" (.string "base64"))
      "value" (.string (b64Encode bytes))))

/-- Element-wise conversion of an array's contents, fail-fast on the first
error (collect::<Result<Vec<_>, _>> over the mapped iterator). -/
def convertList : List MpValue → Except Mp2JsonError (List JsonValue)
  | [] => .ok []
  | v :: vs =>
    match convert v with
    | .ok w =>
      match convertList vs with
      | .ok ws => .ok (w :: ws)
      | .error e => .error e
    | .error e => .error e

/-- Entry-wise conversion of a map's contents, fail-fast: each key must be
a msgpack String with valid UTF-8 bytes (else MapKeyNotString respectively
InvalidString), then the entry's value is converted. -/
def convertEntries : List (MpValue × MpValue) →
    Except Mp2JsonError (List (String × JsonValue))
  | [] => .ok []
  | (k, v) :: rest =>
    match k with
    | .string sb =>
      match utf8Decode sb with
      | some cs =>
        match convert v with
        | .ok w =>
          match convertEntries rest with
          | .ok ps => .ok ((⟨cs⟩, w) :: ps)
          | .error e => .error e
        | .error e => .error e
      | none => .error .invalidString
    | _ => .error .mapKeyNotString

end

/- ### The stream driver (read_and_convert_one, Converter::run_inner, Converter::run)

The msgpack byte decoder (rmpv::decode::read_value) and the operating
system are external to the repository, so a run of the driver is embedded
over an explicit trace: a list of decode outcomes (one per loop iteration,
each either a decoded value or a decode error), a sink behaviour giving
the outcome of each line write, and a flush outcome.  An exhausted
outcome list models the source being fully consumed, whose next marker
read yields InvalidMarkerRead(UnexpectedEof) (a clean end-of-stream). -/

/-- One decode outcome of rmpv::decode::read_value. -/
abbrev DecodeItem := Except RmpDecodeError MpValue

/-- fn read_and_convert_one: decode one value (its outcome is given by the
trace item), lifting decode errors into Mp2JsonError, then convert it. -/
def read_and_convert_one (item : DecodeItem) : Except Mp2JsonError JsonValue :=
  match item with
  | .error e => .error (.rmpDecode e)
  | .ok v => convert v

/-- Outcome of writing one output line (the serialized value followed by
the newline byte): success, a failure of the value write, or a failure of
the newline write. -/
inductive WriteOutcome
  | ok
  | errValue (k : IoErrorKind)
  | errNewline (k : IoErrorKind)
  deriving DecidableEq, Repr

/-- The combined io::Result of the value write and_then the newline write. -/
def lineWriteResult : WriteOutcome → Except IoErrorKind Unit
  | .ok => .ok ()
  | .errValue k => .error k
  | .errNewline k => .error k

/-- The Converter configuration (struct Converter). -/
structure Converter where
  buffered : Bool
  pretty : Bool

/-- Converter::run_inner: loop decoding one value, converting it, and
writing one line; break successfully on a clean end-of-stream
(InvalidMarkerRead with UnexpectedEof) or on a broken-pipe write; any
other decode, conversion or write error aborts the loop with that error.
The sink argument gives the outcome of writing line number w; the result
counts the lines fully written. -/
def Converter.run_inner (c : Converter) (sink : Nat → WriteOutcome) :
    List DecodeItem → Nat → Except Mp2JsonError Nat
  | [], w => .ok w
  | item :: rest, w =>
    match read_and_convert_one item with
    | .ok _v =>
      match lineWriteResult (sink w) with
      | .ok _ => Converter.run_inner c sink rest (w + 1)
      | .error k =>
        if k = .brokenPipe then .ok w else .error (.output k)
    | .error (.rmpDecode (.invalidMarkerRead k)) =>
      if k = .unexpectedEof then .ok w
      else .error (.rmpDecode (.invalidMarkerRead k))
    | .error e => .error e

/-- Converter::run: when buffered, run the loop through the buffering
layer and flush the write-behind buffer once after a successful loop exit
(flushRes gives the flush outcome, none meaning success); a flush failure
is a fatal Output error.  When unbuffered, the loop runs against the raw
sink directly and no final flush happens. -/
def Converter.run (c : Converter) (sink : Nat → WriteOutcome)
    (flushRes : Option IoErrorKind) (items : List DecodeItem) :
    Except Mp2JsonError Nat :=
  if c.buffered then
    match Converter.run_inner c sink items 0 with
    | .error e => .error e
    | .ok n =>
      match flushRes with
      | some k => .error (.output k)
      | none => .ok n
  else
    Converter.run_inner c sink items 0

/-- A sink on which every write succeeds. -/
def okSink : Nat → WriteOutcome := fun _ => .ok

/-- A decode item that decodes and converts successfully. -/
def goodItem (x : DecodeItem) : Bool :=
  match read_and_convert_one x with
  | .ok _ => true
  | .error _ => false

/-- The clean end-of-stream decode error: the marker read of a new value
hit the end of the input. -/
def cleanEof : RmpDecodeError := .invalidMarkerRead .unexpectedEof

/- ### Auxiliary definitions used by the statements -/

/-- Whether an Except value is a success. -/
def exceptOk {ε α : Type} (x : Except ε α) : Bool :=
  match x with
  | .ok _ => true
  | .error _ => false

/-- Whether a map entry converts successfully: its key is a msgpack String
with valid UTF-8 bytes and its value converts. -/
def entryOk (p : MpValue × MpValue) : Bool :=
  match p.1 with
  | .string sb => (utf8Decode sb).isSome && exceptOk (convert p.2)
  | _ => false

/-- Whether a map entry's key is acceptable (a String with valid UTF-8). -/
def entryKeyOk : MpValue → Bool
  | .string sb => (utf8Decode sb).isSome
  | _ => false

/-- Whether an error is one of the converter's own error kinds, as opposed
to the driver-level decode and output errors. -/
def notDriverErr : Mp2JsonError → Bool
  | .rmpDecode _ => false
  | .output _ => false
  | _ => true

/-- The keys of a list in first-occurrence order, each kept once. -/
def firstKeys : List String → List String
  | [] => []
  | k :: ks => k :: (firstKeys ks).filter (fun x => !(x == k))

/-- The value of the last entry of ps carrying key k, if any. -/
def lastValue (ps : List (String × JsonValue)) (k : String) : Option JsonValue :=
  (ps.reverse.find? (fun p => p.1 == k)).map (fun p => p.2)

/-- How one successfully converted map entry relates to its source entry:
the key was a String whose bytes decode to the output key, and the value
converted to the output value. -/
def entryRel (q : MpValue × MpValue) (p : String × JsonValue) : Prop :=
  (∃ sb cs, q.1 = .string sb ∧ utf8Decode sb = some cs ∧ p.1 = ⟨cs⟩) ∧
    convert q.2 = .ok p.2

/- ### Base64 round-trip -/

theorem decodeB64Char_b64Char : ∀ k : Fin 64, decodeB64Char (b64Char k.val) = some k := by
  decide

theorem decodeB64Char_b64Char_n (n : Nat) (h : n < 64) :
    decodeB64Char (b64Char n) = some ⟨n, h⟩ :=
  decodeB64Char_b64Char ⟨n, h⟩

theorem b64Char_ne_pad (n : Nat) (h : n < 64) : b64Char n ≠ '=' := by
  have : ∀ k : Fin 64, b64Char k.val ≠ '=' := by decide
  exact this ⟨n, h⟩

theorem b64_decode_encode : ∀ l : List Byte, b64DecodeList (b64EncodeList l) = some l
  | [] => rfl
  | [b0] => by
    have hb0 := b0.isLt
    have h0 : b0.val / 4 < 64 := by omega
    have h1 : b0.val % 4 * 16 < 64 := by omega
    simp only [b64EncodeList, b64DecodeList,
      decodeB64Char_b64Char_n _ h0, decodeB64Char_b64Char_n _ h1]
    simp only [and_self, if_pos trivial]
    simp [Fin.ext_iff]
    omega
  | [b0, b1] => by
    have hb0 := b0.isLt
    have hb1 := b1.isLt
    have h0 : b0.val / 4 < 64 := by omega
    have h1 : b0.val % 4 * 16 + b1.val / 16 < 64 := by omega
    have h2 : b1.val % 16 * 4 < 64 := by omega
    simp only [b64EncodeList, b64DecodeList,
      decodeB64Char_b64Char_n _ h0, decodeB64Char_b64Char_n _ h1,
      decodeB64Char_b64Char_n _ h2]
    rw [if_neg (b64Char_ne_pad _ h2)]
    simp only [if_pos trivial]
    simp [Fin.ext_iff]
    omega
  | b0 :: b1 :: b2 :: rest => by
    have hb0 := b0.isLt
    have hb1 := b1.isLt
    have hb2 := b2.isLt
    have h0 : b0.val / 4 < 64 := by omega
    have h1 : b0.val % 4 * 16 + b1.val / 16 < 64 := by omega
    have h2 : b1.val % 16 * 4 + b2.val / 64 < 64 := by omega
    have h3 : b2.val % 64 < 64 := by omega
    have ih := b64_decode_encode rest
    simp only [b64EncodeList, b64DecodeList,
      decodeB64Char_b64Char_n _ h0, decodeB64Char_b64Char_n _ h1,
      decodeB64Char_b64Char_n _ h2, decodeB64Char_b64Char_n _ h3]
    rw [if_neg (b64Char_ne_pad _ h2), if_neg (b64Char_ne_pad _ h3)]
    rw [ih]
    simp [Fin.ext_iff]
    omega

/- ### Lemmas about element-wise conversion -/

theorem convertList_ok_forall2 : ∀ vs ws, convertList vs = .ok ws →
    List.Forall₂ (fun v w => convert v = .ok w) vs ws := by
  intro vs
  induction vs with
  | nil =>
    intro ws h
    simp only [convertList] at h
    injection h with h
    subst h
    exact .nil
  | cons v vs ih =>
    intro ws h
    cases hv : convert v with
    | error e =>
      simp only [convertList, hv] at h
      exact Except.noConfusion h
    | ok w =>
      cases hl : convertList vs with
      | error e =>
        simp only [convertList, hv, hl] at h
        exact Except.noConfusion h
      | ok ws' =>
        simp only [convertList, hv, hl] at h
        injection h with h
        subst h
        exact .cons hv (ih ws' hl)

theorem convertList_append_error : ∀ pre : List MpValue,
    (∀ x ∈ pre, exceptOk (convert x) = true) →
    ∀ v rest e, convert v = .error e →
    convertList (pre ++ v :: rest) = .error e := by
  intro pre
  induction pre with
  | nil =>
    intro _ v rest e hv
    simp only [List.nil_append, convertList, hv]
  | cons x pre ih =>
    intro hpre v rest e hv
    have hx : exceptOk (convert x) = true := hpre x (List.mem_cons_self x pre)
    cases hcx : convert x with
    | error e2 =>
      rw [hcx] at hx
      simp [exceptOk] at hx
    | ok w =>
      have hrec := ih (fun y hy => hpre y (List.mem_cons_of_mem x hy)) v rest e hv
      simp only [List.cons_append, convertList, List.append_eq, hcx, hrec]

/- ### Claim theorems: the value converter -/

/-- C3: For every Integer binary value, convert attempts, in order, a
signed 64-bit representation, then an unsigned 64-bit representation, then
a 64-bit floating-point approximation; the first representation that
succeeds becomes the output Number; if none succeeds, convert fails with
InvalidInteger carrying the original integer. -/
theorem c3_integer_attempt_order (i : MpInteger) :
    (∀ n : Int, i.as_i64 = some n →
      convert (.integer i) = .ok (.number (.intNum n)))
    ∧ (i.as_i64 = none → ∀ n : Nat, i.as_u64 = some n →
      convert (.integer i) = .ok (.number (.intNum n)))
    ∧ (i.as_i64 = none → i.as_u64 = none → ∀ n : Int, i.as_f64 = some n →
      convert (.integer i) = .ok (.number (.floatApproxOfInt n)))
    ∧ (i.as_i64 = none → i.as_u64 = none → i.as_f64 = none →
      convert (.integer i) = .error (.invalidInteger i)) := by
  refine ⟨?_, ?_, ?_, ?_⟩
  · intro n h
    simp only [convert, h]
  · intro h1 n h2
    simp only [convert, h1, h2]
  · intro h1 h2 n h3
    simp only [convert, h1, h2, h3]
  · intro h1 h2 h3
    simp only [convert, h1, h2, h3]

/-- Witness for C3: a negative integer takes the signed branch and an
integer above the signed range takes the unsigned branch. -/
theorem c3_witness :
    convert (.integer (.negInt (-5))) = .ok (.number (.intNum (-5)))
    ∧ convert (.integer (.posInt (2 ^ 63))) =
      .ok (.number (.intNum ((2 ^ 63 : Nat) : Int))) :=
  ⟨(c3_integer_attempt_order (.negInt (-5))).1 (-5) rfl,
   (c3_integer_attempt_order (.posInt (2 ^ 63))).2.1 (by decide) (2 ^ 63) rfl⟩

/-- C10: every integer the external decoder can produce (a payload within
the u64 respectively i64 machine range) is converted through the signed or
unsigned 64-bit branch to its exact value: the floating fallback and the
InvalidInteger error are unreachable, and Integer conversion never fails. -/
theorem c10_integer_never_fails (i : MpInteger) (h : i.inRange) :
    convert (.integer i) = .ok (.number (.intNum i.toIntVal)) := by
  cases i with
  | posInt n =>
    by_cases hn : (n : Int) ≤ 2 ^ 63 - 1
    · simp only [convert, MpInteger.as_i64, MpInteger.toIntVal, if_pos hn]
    · simp only [convert, MpInteger.as_i64, MpInteger.as_u64, MpInteger.toIntVal,
        if_neg hn]
  | negInt n =>
    simp only [convert, MpInteger.as_i64, MpInteger.toIntVal]

/-- Witness for C10 at a concrete in-range integer. -/
theorem c10_witness :
    MpInteger.inRange (.posInt 7) ∧
    convert (.integer (.posInt 7)) = .ok (.number (.intNum 7)) :=
  ⟨by decide, c10_integer_never_fails (.posInt 7) (by decide)⟩

/-- C4: converting a Binary value always succeeds, yielding an object with
encoding mapped to base64 and value mapped to the standard base64 encoding
of the bytes, and standard base64 decoding of that value string reproduces
the bytes exactly. -/
theorem c4_binary_base64 (bs : List Byte) :
    convert (.binary bs) =
      .ok (.object [("encoding", .string "base64"),
        ("value", .string (b64Encode bs))])
    ∧ b64Decode (b64Encode bs) = some bs := by
  constructor
  · rfl
  · exact b64_decode_encode bs

/-- C8: converting a String value succeeds exactly when the raw bytes are
valid UTF-8; on success the result is the decoded text, on failure the
error is InvalidString. -/
theorem c8_string_utf8 (bs : List Byte) :
    ((exceptOk (convert (.string bs)) = true) ↔ (utf8Decode bs).isSome = true)
    ∧ (∀ cs : List Char, utf8Decode bs = some cs →
      convert (.string bs) = .ok (.string ⟨cs⟩))
    ∧ (utf8Decode bs = none → convert (.string bs) = .error .invalidString) := by
  refine ⟨?_, ?_, ?_⟩
  · cases h : utf8Decode bs <;> simp [convert, h, exceptOk]
  · intro cs h
    simp only [convert, h]
  · intro h
    simp only [convert, h]

/-- Witness for C8: valid UTF-8 bytes decode to their text; the byte pair
0xC3 0x28 (a lead byte with an invalid continuation) is rejected. -/
theorem c8_witness :
    convert (.string [102, 111, 111]) = .ok (.string "foo")
    ∧ convert (.string [0xC3, 0x28]) = .error .invalidString :=
  ⟨(c8_string_utf8 [102, 111, 111]).2.1 ['f', 'o', 'o'] rfl,
   (c8_string_utf8 [0xC3, 0x28]).2.2 rfl⟩

/-- C5: array conversion converts each element in original order: on
success the output array is element-wise the conversion of the input array
(equal length, original order), and if an element fails while every
earlier element succeeds, the whole array conversion fails with exactly
that element's error. -/
theorem c5_array_fail_fast (vs : List MpValue) :
    (∀ js, convert (.array vs) = .ok js →
      ∃ ws, js = .array ws ∧ ws.length = vs.length ∧
        List.Forall₂ (fun v w => convert v = .ok w) vs ws)
    ∧ (∀ pre v rest e, vs = pre ++ v :: rest →
      (∀ x ∈ pre, exceptOk (convert x) = true) → convert v = .error e →
      convert (.array vs) = .error e) := by
  constructor
  · intro js h
    cases hl : convertList vs with
    | error e =>
      simp only [convert, hl] at h
      exact Except.noConfusion h
    | ok ws =>
      simp only [convert, hl] at h
      injection h with h
      subst h
      have h2 := convertList_ok_forall2 vs ws hl
      exact ⟨ws, rfl, (List.Forall₂.length_eq h2).symm, h2⟩
  · intro pre v rest e hsplit hpre hv
    subst hsplit
    simp only [convert, convertList_append_error pre hpre v rest e hv]

/-- Witness for C5: a failing second element aborts the array conversion
with that element's error. -/
theorem c5_witness :
    convert (.array [.nil, .string [0xC3, 0x28]]) = .error .invalidString :=
  (c5_array_fail_fast [.nil, .string [0xC3, 0x28]]).2
    [.nil] (.string [0xC3, 0x28]) [] .invalidString rfl (by decide) rfl

/- ### Lemmas about entry-wise map conversion -/

theorem exceptOk_eq_true {ε α : Type} (x : Except ε α) :
    exceptOk x = true ↔ ∃ a, x = .ok a := by
  cases x <;> simp [exceptOk]

theorem convert_map_error {entries : List (MpValue × MpValue)} {e : Mp2JsonError}
    (h : convertEntries entries = .error e) : convert (.map entries) = .error e := by
  simp only [convert, h]

theorem convert_map_ok {entries : List (MpValue × MpValue)}
    {ps : List (String × JsonValue)} (h : convertEntries entries = .ok ps) :
    convert (.map entries) = .ok (.object (buildObj ps)) := by
  simp only [convert, h]

theorem convertEntries_append_error : ∀ pre : List (MpValue × MpValue),
    (∀ p ∈ pre, entryOk p = true) →
    ∀ tail e, convertEntries tail = .error e →
    convertEntries (pre ++ tail) = .error e := by
  intro pre
  induction pre with
  | nil =>
    intro _ tail e ht
    simpa using ht
  | cons q pre ih =>
    intro hpre tail e ht
    have hq : entryOk q = true := hpre q (List.mem_cons_self q pre)
    obtain ⟨qk, qv⟩ := q
    cases qk with
    | string sb =>
      simp only [entryOk, Bool.and_eq_true] at hq
      obtain ⟨hsb, hqv⟩ := hq
      obtain ⟨cs, hcs⟩ := Option.isSome_iff_exists.mp hsb
      obtain ⟨w, hw⟩ := (exceptOk_eq_true _).mp hqv
      have hrec := ih (fun y hy => hpre y (List.mem_cons_of_mem _ hy)) tail e ht
      simp only [List.cons_append, convertEntries, List.append_eq, hcs, hw, hrec]
    | nil => simp [entryOk] at hq
    | boolean b => simp [entryOk] at hq
    | integer i => simp [entryOk] at hq
    | f32 bits => simp [entryOk] at hq
    | f64 bits => simp [entryOk] at hq
    | binary bs => simp [entryOk] at hq
    | array vs => simp [entryOk] at hq
    | map es => simp [entryOk] at hq
    | ext t bs => simp [entryOk] at hq

theorem convertEntries_bad_key : ∀ entries : List (MpValue × MpValue),
    (∃ p ∈ entries, entryKeyOk p.1 = false) →
    ∃ e, convertEntries entries = .error e := by
  intro entries
  induction entries with
  | nil =>
    rintro ⟨p, hp, _⟩
    exact absurd hp (List.not_mem_nil p)
  | cons q qs ih =>
    rintro ⟨p, hp, hbad⟩
    obtain ⟨qk, qv⟩ := q
    cases qk with
    | string sb =>
      cases hcs : utf8Decode sb with
      | none =>
        exact ⟨.invalidString, by simp only [convertEntries, hcs]⟩
      | some cs =>
        have hpin : p ∈ qs := by
          rcases List.mem_cons.mp hp with h | h
          · subst h
            simp [entryKeyOk, hcs] at hbad
          · exact h
        cases hv : convert qv with
        | error e => exact ⟨e, by simp only [convertEntries, hcs, hv]⟩
        | ok w =>
          obtain ⟨e, he⟩ := ih ⟨p, hpin, hbad⟩
          exact ⟨e, by simp only [convertEntries, hcs, hv, he]⟩
    | nil => exact ⟨.mapKeyNotString, by simp only [convertEntries]⟩
    | boolean b => exact ⟨.mapKeyNotString, by simp only [convertEntries]⟩
    | integer i => exact ⟨.mapKeyNotString, by simp only [convertEntries]⟩
    | f32 bits => exact ⟨.mapKeyNotString, by simp only [convertEntries]⟩
    | f64 bits => exact ⟨.mapKeyNotString, by simp only [convertEntries]⟩
    | binary bs => exact ⟨.mapKeyNotString, by simp only [convertEntries]⟩
    | array vs => exact ⟨.mapKeyNotString, by simp only [convertEntries]⟩
    | map es => exact ⟨.mapKeyNotString, by simp only [convertEntries]⟩
    | ext t bs => exact ⟨.mapKeyNotString, by simp only [convertEntries]⟩

/- ### Claim C6 -/

/-- Counterexample to C6 as stated: this map contains an entry whose key
is not a String-typed value (the second entry, keyed by the integer 0),
yet convert fails with InvalidString — the error of the first failing
entry, whose value has non-UTF-8 bytes — not with MapKeyNotString. -/
theorem c6_counterexample :
    ((MpValue.integer (.negInt 0), MpValue.nil) ∈
      [(MpValue.string [102], MpValue.string [0xC3, 0x28]),
       (MpValue.integer (.negInt 0), MpValue.nil)])
    ∧ convert (.map [(MpValue.string [102], MpValue.string [0xC3, 0x28]),
       (MpValue.integer (.negInt 0), MpValue.nil)]) = .error .invalidString
    ∧ Mp2JsonError.invalidString ≠ Mp2JsonError.mapKeyNotString := by
  refine ⟨List.mem_cons_of_mem _ (List.mem_singleton_self _), rfl, ?_⟩
  intro h
  exact Mp2JsonError.noConfusion h

/-- C6 as amended: a map entry with a non-string or non-UTF-8 key always
makes the whole conversion fail (the entry is never silently dropped), and
the specific error is MapKeyNotString for a non-string key respectively
InvalidString for a String key with non-UTF-8 bytes whenever that entry is
the first failing entry; an earlier failing entry's error takes
precedence. -/
theorem c6_map_bad_key_fails (pre : List (MpValue × MpValue)) (k v : MpValue)
    (rest : List (MpValue × MpValue)) (hpre : ∀ p ∈ pre, entryOk p = true) :
    ((∀ sb, k ≠ .string sb) →
      convert (.map (pre ++ (k, v) :: rest)) = .error .mapKeyNotString)
    ∧ (∀ sb, k = .string sb → utf8Decode sb = none →
      convert (.map (pre ++ (k, v) :: rest)) = .error .invalidString)
    ∧ (∀ entries : List (MpValue × MpValue),
      (∃ p ∈ entries, entryKeyOk p.1 = false) →
      exceptOk (convert (.map entries)) = false) := by
  refine ⟨?_, ?_, ?_⟩
  · intro hk
    refine convert_map_error (convertEntries_append_error pre hpre _ _ ?_)
    cases k with
    | string sb => exact absurd rfl (hk sb)
    | nil => simp only [convertEntries]
    | boolean b => simp only [convertEntries]
    | integer i => simp only [convertEntries]
    | f32 bits => simp only [convertEntries]
    | f64 bits => simp only [convertEntries]
    | binary bs => simp only [convertEntries]
    | array vs => simp only [convertEntries]
    | map es => simp only [convertEntries]
    | ext t bs => simp only [convertEntries]
  · intro sb hk hsb
    subst hk
    refine convert_map_error (convertEntries_append_error pre hpre _ _ ?_)
    simp only [convertEntries, hsb]
  · intro entries hbad
    obtain ⟨e, he⟩ := convertEntries_bad_key entries hbad
    simp only [convert_map_error he, exceptOk]

/-- Witness for the amended C6: an integer-keyed one-entry map fails with
MapKeyNotString; a map keyed by non-UTF-8 bytes fails with InvalidString. -/
theorem c6_witness :
    convert (.map [(MpValue.integer (.negInt 0), MpValue.nil)]) =
      .error .mapKeyNotString
    ∧ convert (.map [(MpValue.string [0xC3, 0x28], MpValue.nil)]) =
      .error .invalidString :=
  ⟨(c6_map_bad_key_fails [] (.integer (.negInt 0)) .nil []
      (fun p hp => absurd hp (List.not_mem_nil p))).1
      (fun _sb h => MpValue.noConfusion h),
   (c6_map_bad_key_fails [] (.string [0xC3, 0x28]) .nil []
      (fun p hp => absurd hp (List.not_mem_nil p))).2.1
      [0xC3, 0x28] rfl rfl⟩

/- ### Lemmas about json Object insertion -/

theorem objGet_cons (q : String × JsonValue) (o : List (String × JsonValue))
    (k : String) :
    objGet (q :: o) k = if (q.1 == k) = true then some q.2 else objGet o k := by
  simp only [objGet, List.find?_cons]
  cases hq : q.1 == k
  · simp [hq]
  · simp [hq]

theorem objGet_map_replace_self (o : List (String × JsonValue)) (k : String)
    (v : JsonValue) (h : o.any (fun p => p.1 == k) = true) :
    objGet (o.map (fun p => if p.1 == k then (k, v) else p)) k = some v := by
  induction o with
  | nil => simp at h
  | cons q o ih =>
    rw [List.map_cons]
    cases hq : q.1 == k
    · have ho : o.any (fun p => p.1 == k) = true := by
        simp only [List.any_cons, hq, Bool.false_or] at h
        exact h
      rw [if_neg (by simp [hq]), objGet_cons, if_neg (by simp [hq])]
      exact ih ho
    · rw [if_pos rfl, objGet_cons, if_pos (beq_self_eq_true k)]

theorem objGet_map_replace_other (o : List (String × JsonValue)) (k k' : String)
    (v : JsonValue) (hne : k' ≠ k) :
    objGet (o.map (fun p => if p.1 == k then (k, v) else p)) k' = objGet o k' := by
  induction o with
  | nil => rfl
  | cons q o ih =>
    rw [List.map_cons]
    cases hq : q.1 == k
    · rw [if_neg (by simp [hq]), objGet_cons, objGet_cons]
      cases hq' : q.1 == k'
      · simp only [hq', Bool.false_eq_true, if_false]
        exact ih
      · simp only [hq', if_true]
    · have hqk : q.1 = k := by simpa using hq
      have h1 : ((k, v).1 == k') = false := by
        simp only [beq_eq_false_iff_ne, ne_eq]
        exact fun hh => hne hh.symm
      have h2 : (q.1 == k') = false := by
        simp only [beq_eq_false_iff_ne, ne_eq, hqk]
        exact fun hh => hne hh.symm
      rw [if_pos rfl, objGet_cons, objGet_cons, if_neg (by simp [h1]),
        if_neg (by simp [h2])]
      exact ih

theorem objGet_append_single (o : List (String × JsonValue)) (k k' : String)
    (v : JsonValue) (h : o.any (fun p => p.1 == k) = false) :
    objGet (o ++ [(k, v)]) k' = if k' = k then some v else objGet o k' := by
  induction o with
  | nil =>
    rw [List.nil_append, objGet_cons]
    by_cases hk : k' = k
    · subst hk
      rw [if_pos (beq_self_eq_true k'), if_pos rfl]
    · rw [if_neg hk,
        if_neg (by simp only [beq_iff_eq]; exact fun hh => hk hh.symm)]
  | cons q o ih =>
    simp only [List.any_cons, Bool.or_eq_false_iff] at h
    obtain ⟨hq, ho⟩ := h
    rw [List.cons_append, objGet_cons, objGet_cons]
    cases hq' : q.1 == k'
    · simp only [hq', Bool.false_eq_true, if_false]
      exact ih ho
    · have hqk' : q.1 = k' := by simpa using hq'
      have hk : k' ≠ k := by
        intro hh
        rw [hh] at hqk'
        exact beq_eq_false_iff_ne.mp hq hqk'
      simp only [hq', if_true]
      rw [if_neg hk]

theorem objGet_objInsert (o : List (String × JsonValue)) (k k' : String)
    (v : JsonValue) :
    objGet (objInsert o k v) k' = if k' = k then some v else objGet o k' := by
  unfold objInsert
  cases hany : o.any (fun p => p.1 == k)
  · rw [if_neg Bool.false_ne_true]
    exact objGet_append_single o k k' v hany
  · rw [if_pos rfl]
    by_cases hk : k' = k
    · subst hk
      rw [if_pos rfl]
      exact objGet_map_replace_self o k' v hany
    · rw [if_neg hk]
      exact objGet_map_replace_other o k k' v hk

theorem map_fst_objInsert (o : List (String × JsonValue)) (k : String)
    (v : JsonValue) :
    (objInsert o k v).map Prod.fst =
      if o.any (fun p => p.1 == k) then o.map Prod.fst
      else o.map Prod.fst ++ [k] := by
  unfold objInsert
  cases hany : o.any (fun p => p.1 == k)
  · rw [if_neg Bool.false_ne_true, if_neg Bool.false_ne_true, List.map_append,
      List.map_singleton]
  · rw [if_pos rfl, if_pos rfl, List.map_map]
    refine List.map_congr_left ?_
    intro p _hp
    simp only [Function.comp_apply]
    cases hpk : p.1 == k
    · rw [if_neg Bool.false_ne_true]
    · simp only [hpk]
      rw [if_pos trivial]
      exact (beq_iff_eq.mp hpk).symm

theorem buildObj_append_single (ps : List (String × JsonValue))
    (p : String × JsonValue) :
    buildObj (ps ++ [p]) = objInsert (buildObj ps) p.1 p.2 := by
  unfold buildObj
  rw [List.foldl_append]
  rfl

theorem any_key_eq_true (o : List (String × JsonValue)) (k : String) :
    (o.any (fun p => p.1 == k)) = true ↔ k ∈ o.map Prod.fst := by
  simp only [List.any_eq_true, List.mem_map, beq_iff_eq]

theorem mem_firstKeys : ∀ (l : List String) (x : String), x ∈ firstKeys l ↔ x ∈ l := by
  intro l
  induction l with
  | nil => intro x; simp [firstKeys]
  | cons a l ih =>
    intro x
    simp only [firstKeys, List.mem_cons, List.mem_filter, ih]
    constructor
    · rintro (h | ⟨h, _⟩)
      · exact Or.inl h
      · exact Or.inr h
    · rintro (h | h)
      · exact Or.inl h
      · by_cases hxa : x = a
        · exact Or.inl hxa
        · exact Or.inr ⟨h, by simp [hxa]⟩

theorem firstKeys_append_single : ∀ (l : List String) (k : String),
    firstKeys (l ++ [k]) = if k ∈ l then firstKeys l else firstKeys l ++ [k] := by
  intro l
  induction l with
  | nil =>
    intro k
    simp [firstKeys]
  | cons a l ih =>
    intro k
    rw [List.cons_append]
    simp only [firstKeys, ih]
    by_cases hk : k ∈ l
    · rw [if_pos hk, if_pos (List.mem_cons_of_mem a hk)]
    · rw [if_neg hk]
      by_cases hak : k = a
      · subst hak
        rw [if_pos (List.mem_cons_self k l), List.filter_append]
        simp
      · rw [if_neg (by simp [List.mem_cons, hak, hk]), List.filter_append]
        simp [hak]

theorem buildObj_keys (ps : List (String × JsonValue)) :
    (buildObj ps).map Prod.fst = firstKeys (ps.map Prod.fst) := by
  induction ps using List.reverseRecOn with
  | nil => rfl
  | append_singleton ps p ih =>
    rw [buildObj_append_single, map_fst_objInsert, List.map_append,
      List.map_singleton, firstKeys_append_single]
    by_cases hp : p.1 ∈ ps.map Prod.fst
    · have hb : ((buildObj ps).any (fun q => q.1 == p.1)) = true := by
        rw [any_key_eq_true, ih, mem_firstKeys]
        exact hp
      rw [if_pos hb, if_pos hp, ih]
    · have hb : ¬ (((buildObj ps).any (fun q => q.1 == p.1)) = true) := by
        rw [any_key_eq_true, ih, mem_firstKeys]
        exact hp
      rw [if_neg hb, if_neg hp, ih]

theorem lastValue_append_single (ps : List (String × JsonValue))
    (p : String × JsonValue) (k : String) :
    lastValue (ps ++ [p]) k =
      if (p.1 == k) = true then some p.2 else lastValue ps k := by
  unfold lastValue
  rw [List.reverse_append]
  simp only [List.reverse_singleton, List.singleton_append, List.find?_cons]
  cases hp : p.1 == k
  · simp [hp]
  · simp [hp]

theorem objGet_buildObj (ps : List (String × JsonValue)) (k : String) :
    objGet (buildObj ps) k = lastValue ps k := by
  induction ps using List.reverseRecOn with
  | nil => rfl
  | append_singleton ps p ih =>
    rw [buildObj_append_single, objGet_objInsert, lastValue_append_single]
    by_cases hk : p.1 = k
    · rw [if_pos hk.symm, if_pos (by simp [hk])]
    · rw [if_neg (fun hh => hk hh.symm), if_neg (by simp [hk]), ih]

theorem convertEntries_ok_forall2 : ∀ (entries : List (MpValue × MpValue))
    (ps : List (String × JsonValue)), convertEntries entries = .ok ps →
    List.Forall₂ entryRel entries ps := by
  intro entries
  induction entries with
  | nil =>
    intro ps h
    simp only [convertEntries] at h
    injection h with h
    subst h
    exact .nil
  | cons q qs ih =>
    intro ps h
    obtain ⟨qk, qv⟩ := q
    cases qk with
    | string sb =>
      cases hcs : utf8Decode sb with
      | none =>
        simp only [convertEntries, hcs] at h
        exact Except.noConfusion h
      | some cs =>
        cases hv : convert qv with
        | error e =>
          simp only [convertEntries, hcs, hv] at h
          exact Except.noConfusion h
        | ok w =>
          cases hrest : convertEntries qs with
          | error e =>
            simp only [convertEntries, hcs, hv, hrest] at h
            exact Except.noConfusion h
          | ok ps' =>
            simp only [convertEntries, hcs, hv, hrest] at h
            injection h with h
            subst h
            exact .cons ⟨⟨sb, cs, rfl, hcs, rfl⟩, hv⟩ (ih ps' hrest)
    | nil =>
      simp only [convertEntries] at h
      exact Except.noConfusion h
    | boolean b =>
      simp only [convertEntries] at h
      exact Except.noConfusion h
    | integer i =>
      simp only [convertEntries] at h
      exact Except.noConfusion h
    | f32 bits =>
      simp only [convertEntries] at h
      exact Except.noConfusion h
    | f64 bits =>
      simp only [convertEntries] at h
      exact Except.noConfusion h
    | binary bs =>
      simp only [convertEntries] at h
      exact Except.noConfusion h
    | array vs =>
      simp only [convertEntries] at h
      exact Except.noConfusion h
    | map es =>
      simp only [convertEntries] at h
      exact Except.noConfusion h
    | ext t bs =>
      simp only [convertEntries] at h
      exact Except.noConfusion h

/- ### Claim C7 -/

/-- C7: when a Map conversion succeeds, the output object holds the
converted entries: entry-wise related to the input in original order
(Forall2), with keys appearing in first-occurrence input order each kept
once, and the value under any key being the conversion of the last input
entry carrying that key (later duplicates overwrite earlier ones). -/
theorem c7_map_order_duplicates (entries : List (MpValue × MpValue))
    (ps : List (String × JsonValue)) (h : convertEntries entries = .ok ps) :
    convert (.map entries) = .ok (.object (buildObj ps))
    ∧ List.Forall₂ entryRel entries ps
    ∧ (buildObj ps).map Prod.fst = firstKeys (ps.map Prod.fst)
    ∧ ∀ k, objGet (buildObj ps) k = lastValue ps k :=
  ⟨convert_map_ok h, convertEntries_ok_forall2 entries ps h,
   buildObj_keys ps, fun k => objGet_buildObj ps k⟩

/-- Witness for C7: a map with the duplicate key "a" keeps one entry for
"a" holding the converted value of the later occurrence. -/
theorem c7_witness :
    objGet (buildObj [("a", JsonValue.null), ("a", JsonValue.boolean true)]) "a" =
      some (JsonValue.boolean true)
    ∧ (buildObj [("a", JsonValue.null), ("a", JsonValue.boolean true)]).map
        Prod.fst = ["a"] :=
  ⟨((c7_map_order_duplicates
      [(.string [97], .nil), (.string [97], .boolean true)]
      [("a", JsonValue.null), ("a", JsonValue.boolean true)] rfl).2.2.2 "a").trans
      rfl,
   ((c7_map_order_duplicates
      [(.string [97], .nil), (.string [97], .boolean true)]
      [("a", JsonValue.null), ("a", JsonValue.boolean true)] rfl).2.2.1).trans
      rfl⟩

/- ### Lemmas about the stream driver -/

theorem run_inner_append_good (c : Converter) : ∀ (good tail : List DecodeItem)
    (w : Nat), (∀ x ∈ good, goodItem x = true) →
    c.run_inner okSink (good ++ tail) w =
      c.run_inner okSink tail (w + good.length) := by
  intro good
  induction good with
  | nil =>
    intro tail w _
    simp [Converter.run_inner]
  | cons x good ih =>
    intro tail w hgood
    have hx : goodItem x = true := hgood x (List.mem_cons_self x good)
    cases hcx : read_and_convert_one x with
    | error e => simp [goodItem, hcx] at hx
    | ok v =>
      rw [List.cons_append]
      show (match read_and_convert_one x with
        | .ok _v =>
          match lineWriteResult (okSink w) with
          | .ok _ => c.run_inner okSink (good ++ tail) (w + 1)
          | .error k => if k = .brokenPipe then .ok w else .error (.output k)
        | .error (.rmpDecode (.invalidMarkerRead k)) =>
          if k = .unexpectedEof then .ok w
          else .error (.rmpDecode (.invalidMarkerRead k))
        | .error e => .error e) =
        c.run_inner okSink tail (w + (x :: good).length)
      rw [hcx]
      show c.run_inner okSink (good ++ tail) (w + 1) =
        c.run_inner okSink tail (w + (good.length + 1))
      rw [ih tail (w + 1) (fun y hy => hgood y (List.mem_cons_of_mem x hy))]
      congr 1
      omega

theorem run_inner_all_good (c : Converter) (items : List DecodeItem)
    (h : ∀ x ∈ items, goodItem x = true) :
    c.run_inner okSink items 0 = .ok items.length := by
  have := run_inner_append_good c items [] 0 h
  rw [List.append_nil] at this
  rw [this]
  simp [Converter.run_inner]

/- ### The converter only produces converter-kind errors -/

mutual

theorem convert_error_kind : ∀ (v : MpValue) (er : Mp2JsonError),
    convert v = .error er → notDriverErr er = true
  | .nil, er => by
    intro h
    simp only [convert] at h
    exact Except.noConfusion h
  | .boolean b, er => by
    intro h
    simp only [convert] at h
    exact Except.noConfusion h
  | .integer i, er => by
    intro h
    cases hi : i.as_i64 with
    | some n =>
      simp only [convert, hi] at h
      exact Except.noConfusion h
    | none =>
      cases hu : i.as_u64 with
      | some n =>
        simp only [convert, hi, hu] at h
        exact Except.noConfusion h
      | none =>
        cases hf : i.as_f64 with
        | some n =>
          simp only [convert, hi, hu, hf] at h
          exact Except.noConfusion h
        | none =>
          simp only [convert, hi, hu, hf] at h
          injection h with h
          subst h
          rfl
  | .f32 bits, er => by
    intro h
    simp only [convert] at h
    exact Except.noConfusion h
  | .f64 bits, er => by
    intro h
    simp only [convert] at h
    exact Except.noConfusion h
  | .string bytes, er => by
    intro h
    cases hd : utf8Decode bytes with
    | some cs =>
      simp only [convert, hd] at h
      exact Except.noConfusion h
    | none =>
      simp only [convert, hd] at h
      injection h with h
      subst h
      rfl
  | .binary bytes, er => by
    intro h
    simp only [convert] at h
    exact Except.noConfusion h
  | .array vs, er => by
    intro h
    cases hl : convertList vs with
    | ok ws =>
      simp only [convert, hl] at h
      exact Except.noConfusion h
    | error e =>
      simp only [convert, hl] at h
      injection h with h
      subst h
      exact convertList_error_kind vs _ hl
  | .map entries, er => by
    intro h
    cases hm : convertEntries entries with
    | ok ps =>
      simp only [convert, hm] at h
      exact Except.noConfusion h
    | error e =>
      simp only [convert, hm] at h
      injection h with h
      subst h
      exact convertEntries_error_kind entries _ hm
  | .ext t bytes, er => by
    intro h
    simp only [convert] at h
    exact Except.noConfusion h

theorem convertList_error_kind : ∀ (vs : List MpValue) (er : Mp2JsonError),
    convertList vs = .error er → notDriverErr er = true
  | [], er => by
    intro h
    simp only [convertList] at h
    exact Except.noConfusion h
  | v :: vs, er => by
    intro h
    cases hv : convert v with
    | error e =>
      simp only [convertList, hv] at h
      injection h with h
      subst h
      exact convert_error_kind v _ hv
    | ok w =>
      cases hl : convertList vs with
      | error e =>
        simp only [convertList, hv, hl] at h
        injection h with h
        subst h
        exact convertList_error_kind vs _ hl
      | ok ws =>
        simp only [convertList, hv, hl] at h
        exact Except.noConfusion h

theorem convertEntries_error_kind : ∀ (entries : List (MpValue × MpValue))
    (er : Mp2JsonError), convertEntries entries = .error er →
    notDriverErr er = true
  | [], er => by
    intro h
    simp only [convertEntries] at h
    exact Except.noConfusion h
  | (k, v) :: rest, er => by
    intro h
    cases k with
    | string sb =>
      cases hd : utf8Decode sb with
      | none =>
        simp only [convertEntries, hd] at h
        injection h with h
        subst h
        rfl
      | some cs =>
        cases hv : convert v with
        | error e =>
          simp only [convertEntries, hd, hv] at h
          injection h with h
          subst h
          exact convert_error_kind v _ hv
        | ok w =>
          cases hrest : convertEntries rest with
          | error e =>
            simp only [convertEntries, hd, hv, hrest] at h
            injection h with h
            subst h
            exact convertEntries_error_kind rest _ hrest
          | ok ps =>
            simp only [convertEntries, hd, hv, hrest] at h
            exact Except.noConfusion h
    | nil =>
      simp only [convertEntries] at h
      injection h with h
      subst h
      rfl
    | boolean b =>
      simp only [convertEntries] at h
      injection h with h
      subst h
      rfl
    | integer i =>
      simp only [convertEntries] at h
      injection h with h
      subst h
      rfl
    | f32 bits =>
      simp only [convertEntries] at h
      injection h with h
      subst h
      rfl
    | f64 bits =>
      simp only [convertEntries] at h
      injection h with h
      subst h
      rfl
    | binary bs =>
      simp only [convertEntries] at h
      injection h with h
      subst h
      rfl
    | array vs =>
      simp only [convertEntries] at h
      injection h with h
      subst h
      rfl
    | map es =>
      simp only [convertEntries] at h
      injection h with h
      subst h
      rfl
    | ext t bs =>
      simp only [convertEntries] at h
      injection h with h
      subst h
      rfl

end

/- ### Claim C1 -/

/-- C1: with all writes succeeding, the streaming loop terminates with
success exactly when, after a prefix of successfully processed values,
decoding fails with the clean end-of-stream condition (InvalidMarkerRead
of UnexpectedEof, also reached when the outcome trace is exhausted); any
other decode failure terminates the loop with that decode error, and a
conversion failure terminates it with the conversion error. -/
theorem c1_loop_termination (c : Converter) (good : List DecodeItem)
    (item : DecodeItem) (rest : List DecodeItem)
    (hgood : ∀ x ∈ good, goodItem x = true) (hbad : goodItem item = false) :
    (exceptOk (c.run_inner okSink (good ++ item :: rest) 0) = true ↔
      item = .error cleanEof)
    ∧ (∀ e, item = .error e → e ≠ cleanEof →
      c.run_inner okSink (good ++ item :: rest) 0 = .error (.rmpDecode e))
    ∧ (∀ v ce, item = .ok v → convert v = .error ce →
      c.run_inner okSink (good ++ item :: rest) 0 = .error ce)
    ∧ (∀ itemsAll : List DecodeItem, (∀ x ∈ itemsAll, goodItem x = true) →
      c.run_inner okSink itemsAll 0 = .ok itemsAll.length) := by
  rw [run_inner_append_good c good (item :: rest) 0 hgood]
  refine ⟨?_, ?_, ?_, fun itemsAll hAll => run_inner_all_good c itemsAll hAll⟩
  · cases item with
    | ok v =>
      cases hcv : convert v with
      | ok jv =>
        exfalso
        simp [goodItem, read_and_convert_one, hcv] at hbad
      | error ce =>
        have hk := convert_error_kind v ce hcv
        cases ce with
        | invalidString =>
          simp only [Converter.run_inner, read_and_convert_one, hcv]
          constructor
          · intro hok
            exact Bool.noConfusion hok
          · intro heq
            exact Except.noConfusion heq
        | invalidInteger i =>
          simp only [Converter.run_inner, read_and_convert_one, hcv]
          constructor
          · intro hok
            exact Bool.noConfusion hok
          · intro heq
            exact Except.noConfusion heq
        | mapKeyNotString =>
          simp only [Converter.run_inner, read_and_convert_one, hcv]
          constructor
          · intro hok
            exact Bool.noConfusion hok
          · intro heq
            exact Except.noConfusion heq
        | rmpDecode e => exact Bool.noConfusion hk
        | output k => exact Bool.noConfusion hk
    | error e =>
      cases e with
      | invalidMarkerRead k =>
        cases k with
        | unexpectedEof =>
          simp only [Converter.run_inner, read_and_convert_one]
          rw [if_pos trivial]
          simp [exceptOk, cleanEof]
        | brokenPipe =>
          simp only [Converter.run_inner, read_and_convert_one]
          rw [if_neg (fun hh => IoErrorKind.noConfusion hh)]
          constructor
          · intro hok
            exact Bool.noConfusion hok
          · intro heq
            injection heq with h1
            injection h1 with h2
            exact IoErrorKind.noConfusion h2
        | otherKind =>
          simp only [Converter.run_inner, read_and_convert_one]
          rw [if_neg (fun hh => IoErrorKind.noConfusion hh)]
          constructor
          · intro hok
            exact Bool.noConfusion hok
          · intro heq
            injection heq with h1
            injection h1 with h2
            exact IoErrorKind.noConfusion h2
      | invalidDataRead k =>
        simp only [Converter.run_inner, read_and_convert_one]
        constructor
        · intro hok
          exact Bool.noConfusion hok
        · intro heq
          injection heq with h1
          exact RmpDecodeError.noConfusion h1
      | depthLimitExceeded =>
        simp only [Converter.run_inner, read_and_convert_one]
        constructor
        · intro hok
          exact Bool.noConfusion hok
        · intro heq
          injection heq with h1
          exact RmpDecodeError.noConfusion h1
  · intro e heq hne
    subst heq
    cases e with
    | invalidMarkerRead k =>
      simp only [Converter.run_inner, read_and_convert_one]
      rw [if_neg (fun hh => hne (by rw [hh]; rfl))]
    | invalidDataRead k =>
      simp only [Converter.run_inner, read_and_convert_one]
    | depthLimitExceeded =>
      simp only [Converter.run_inner, read_and_convert_one]
  · intro v ce heq hcv
    subst heq
    have hk := convert_error_kind v ce hcv
    cases ce with
    | invalidString =>
      simp only [Converter.run_inner, read_and_convert_one, hcv]
    | invalidInteger i =>
      simp only [Converter.run_inner, read_and_convert_one, hcv]
    | mapKeyNotString =>
      simp only [Converter.run_inner, read_and_convert_one, hcv]
    | rmpDecode e => exact Bool.noConfusion hk
    | output k => exact Bool.noConfusion hk

/-- Witness for C1: after one successfully processed value, an
InvalidDataRead decode failure (a truncated value) aborts the loop with
that decode error. -/
theorem c1_witness :
    Converter.run_inner ⟨true, false⟩ okSink
      [.ok .nil, .error (.invalidDataRead .unexpectedEof)] 0 =
      .error (.rmpDecode (.invalidDataRead .unexpectedEof)) :=
  (c1_loop_termination ⟨true, false⟩ [.ok .nil]
    (.error (.invalidDataRead .unexpectedEof)) [] (by decide) rfl).2.1
    (.invalidDataRead .unexpectedEof) rfl (by decide)

/- ### Claim C2 -/

theorem run_inner_stop_bp (c : Converter) (sink : Nat → WriteOutcome) :
    ∀ (n : Nat) (items : List DecodeItem) (w : Nat),
    (∀ j, j < n → sink (w + j) = .ok) →
    (sink (w + n) = .errValue .brokenPipe ∨ sink (w + n) = .errNewline .brokenPipe) →
    (∀ x ∈ items.take (n + 1), goodItem x = true) →
    n < items.length →
    c.run_inner sink items w = .ok (w + n) := by
  intro n
  induction n with
  | zero =>
    intro items w _ hbp htake hlen
    cases items with
    | nil => simp at hlen
    | cons x rest =>
      have hx : goodItem x = true := htake x (by simp)
      cases hcx : read_and_convert_one x with
      | error e => simp [goodItem, hcx] at hx
      | ok v =>
        rw [Nat.add_zero] at hbp
        rcases hbp with hbp | hbp
        · simp [Converter.run_inner, hcx, hbp, lineWriteResult]
        · simp [Converter.run_inner, hcx, hbp, lineWriteResult]
  | succ m ih =>
    intro items w hok hbp htake hlen
    cases items with
    | nil => simp at hlen
    | cons x rest =>
      have hx : goodItem x = true := htake x (by simp)
      cases hcx : read_and_convert_one x with
      | error e => simp [goodItem, hcx] at hx
      | ok v =>
        have hw : sink w = .ok := by
          have h0 := hok 0 (Nat.succ_pos m)
          rwa [Nat.add_zero] at h0
        have hok' : ∀ j, j < m → sink (w + 1 + j) = .ok := by
          intro j hj
          have hj1 := hok (j + 1) (by omega)
          have he : w + (j + 1) = w + 1 + j := by omega
          rwa [he] at hj1
        have hbp' : sink (w + 1 + m) = .errValue .brokenPipe ∨
            sink (w + 1 + m) = .errNewline .brokenPipe := by
          have he : w + (m + 1) = w + 1 + m := by omega
          rwa [he] at hbp
        have htake' : ∀ x2 ∈ rest.take (m + 1), goodItem x2 = true := by
          intro x2 hx2
          refine htake x2 ?_
          rw [List.take_succ_cons]
          exact List.mem_cons_of_mem x hx2
        have hlen' : m < rest.length := by
          simp only [List.length_cons] at hlen
          omega
        have hrec := ih rest (w + 1) hok' hbp' htake' hlen'
        simp only [Converter.run_inner, hcx, hw, lineWriteResult, hrec]
        congr 1
        omega

/-- C2: if, after some lines written successfully, the write of a line (the
serialized value or its newline terminator) fails with a broken-pipe
condition while every value up to it decodes and converts, the loop
terminates with success having fully written exactly the earlier lines;
run (with a successful final flush when buffered) likewise returns
success. -/
theorem c2_broken_pipe (c : Converter) (sink : Nat → WriteOutcome)
    (items : List DecodeItem) (n : Nat)
    (hok : ∀ j, j < n → sink j = .ok)
    (hbp : sink n = .errValue .brokenPipe ∨ sink n = .errNewline .brokenPipe)
    (hgood : ∀ x ∈ items.take (n + 1), goodItem x = true)
    (hlen : n < items.length) :
    c.run_inner sink items 0 = .ok n ∧ c.run sink none items = .ok n := by
  have h0 : c.run_inner sink items 0 = .ok (0 + n) := by
    refine run_inner_stop_bp c sink n items 0 ?_ ?_ hgood hlen
    · intro j hj
      have := hok j hj
      rwa [Nat.zero_add]
    · rwa [Nat.zero_add]
  have h1 : c.run_inner sink items 0 = .ok n := by
    rwa [Nat.zero_add] at h0
  refine ⟨h1, ?_⟩
  unfold Converter.run
  cases hc : c.buffered
  · rw [if_neg Bool.false_ne_true]
    exact h1
  · rw [if_pos rfl, h1]

/-- Witness for C2 in the spec's scenario: the consumer accepts the first
line and then closes its read side; the driver returns success having
written exactly one line. -/
theorem c2_witness :
    Converter.run ⟨true, false⟩
      (fun w => if w = 0 then .ok else .errValue .brokenPipe) none
      [.ok .nil, .ok (.boolean true), .ok .nil] = .ok 1 :=
  (c2_broken_pipe ⟨true, false⟩
    (fun w => if w = 0 then .ok else .errValue .brokenPipe)
    [.ok .nil, .ok (.boolean true), .ok .nil] 1
    (by decide) (Or.inl rfl) (by decide) (by decide)).2

/- ### Claim C9 -/

/-- C9: in buffered mode the write-behind buffer is flushed exactly once,
after the loop exits successfully: a successful loop followed by a
successful flush returns the loop's success; a successful loop followed by
a failing flush returns a fatal Output error; a failing loop propagates
its error (the success-path flush is not reached). -/
theorem c9_buffered_flush (c : Converter) (hc : c.buffered = true)
    (sink : Nat → WriteOutcome) (flushRes : Option IoErrorKind)
    (items : List DecodeItem) :
    (∀ n, c.run_inner sink items 0 = .ok n → c.run sink none items = .ok n)
    ∧ (∀ n k, c.run_inner sink items 0 = .ok n →
      c.run sink (some k) items = .error (.output k))
    ∧ (∀ e, c.run_inner sink items 0 = .error e →
      c.run sink flushRes items = .error e) := by
  refine ⟨?_, ?_, ?_⟩
  · intro n h
    unfold Converter.run
    rw [if_pos hc, h]
  · intro n k h
    unfold Converter.run
    rw [if_pos hc, h]
  · intro e h
    unfold Converter.run
    rw [if_pos hc, h]

/-- Witness for C9: on an immediately exhausted stream the loop returns
success, and a failing flush turns the buffered run into an Output
error. -/
theorem c9_witness :
    Converter.run ⟨true, false⟩ okSink (some .otherKind) [] =
      .error (.output .otherKind) :=
  (c9_buffered_flush ⟨true, false⟩ rfl okSink (some .otherKind) []).2.1
    0 .otherKind rfl
